import Mathlib

/-!
Verification of the `timestamp_store` repository.

The repository consists of a Python ctypes wrapper (`src/timestamp_store/wrapper.py`)
around a compiled C++ core.  The wrapper source is embedded directly below.  The core
(`timestamp_store.cpp`) is not part of the provided sources, so its operations are
modelled from the specification: a dual-indexed store with an identifier index
(id → timestamp) and a timestamp index (timestamp → bucket of ids, ordered by
timestamp ascending).

Identifiers and timestamps are 64-bit signed integers in the source; no operation
performs arithmetic on them (only comparisons and storage), so they are embedded
as `Int`.
-/

/-- The dual-indexed store.  Modelled from the spec: the C++ core keeps an
`IdentifierIndex` (ordered/hashed mapping id → timestamp, embedded as an
association list with distinct keys) and a `TimestampIndex` (ordered mapping
timestamp → set of ids, embedded as an association list sorted by key ascending,
each bucket a duplicate-free list of ids). -/
structure Store where
  ident : List (Int × Int)
  tsidx : List (Int × List Int)
deriving Repr, DecidableEq

/-- Association-list lookup in the identifier index. -/
def lookupId (id : Int) : List (Int × Int) → Option Int
  | [] => none
  | p :: rest => if p.1 = id then some p.2 else lookupId id rest

/-- Erase the (single) entry with key `id` from the identifier index. -/
def eraseId (id : Int) : List (Int × Int) → List (Int × Int)
  | [] => []
  | p :: rest => if p.1 = id then rest else p :: eraseId id rest

/-- Remove the first occurrence of `id` from a bucket. -/
def eraseElem (id : Int) : List Int → List Int
  | [] => []
  | x :: rest => if x = id then rest else x :: eraseElem id rest

/-- All ids across all buckets of a timestamp index, in index order. -/
def allIds : List (Int × List Int) → List Int
  | [] => []
  | p :: rest => p.2 ++ allIds rest

/-- The key of the (first) bucket containing `id`, if any. -/
def tsFind (id : Int) : List (Int × List Int) → Option Int
  | [] => none
  | p :: rest => if id ∈ p.2 then some p.1 else tsFind id rest

/-- Insert `id` into the bucket keyed `ts`, keeping keys sorted ascending and
creating the bucket if it does not exist. -/
def bucketInsert (ts id : Int) : List (Int × List Int) → List (Int × List Int)
  | [] => [(ts, [id])]
  | p :: rest =>
    if ts < p.1 then (ts, [id]) :: p :: rest
    else if ts = p.1 then (p.1, id :: p.2) :: rest
    else p :: bucketInsert ts id rest

/-- Remove `id` from the bucket keyed `ts`, pruning the bucket if it becomes
empty. -/
def bucketErase (ts id : Int) : List (Int × List Int) → List (Int × List Int)
  | [] => []
  | p :: rest =>
    if p.1 = ts then
      let b2 := eraseElem id p.2
      if b2.isEmpty then rest else (p.1, b2) :: rest
    else p :: bucketErase ts id rest

/-- Collect, walking from the minimum key while key < threshold, all ids of the
visited buckets (erasing each visited bucket), returning the collected ids and
the remaining timestamp index. -/
def collectBefore (th : Int) : List (Int × List Int) → List Int × List (Int × List Int)
  | [] => ([], [])
  | p :: rest =>
    if p.1 < th then
      let r := collectBefore th rest
      (p.2 ++ r.1, r.2)
    else ([], p :: rest)

/-- Modelled from the spec: `ts_create()` returns an empty store. -/
def ts_create : Store := ⟨[], []⟩

/-- Modelled from the spec: `ts_add` inserts a new entry, or — if `id` already
exists — relocates it: removes the stale (id, old_timestamp) association from
the TimestampIndex, then inserts (id, timestamp) into both indices. -/
def ts_add (s : Store) (id ts : Int) : Store :=
  match lookupId id s.ident with
  | some oldTs =>
      ⟨(id, ts) :: eraseId id s.ident, bucketInsert ts id (bucketErase oldTs id s.tsidx)⟩
  | none =>
      ⟨(id, ts) :: s.ident, bucketInsert ts id s.tsidx⟩

/-- Modelled from the spec: `ts_remove` looks up id in the IdentifierIndex; if
absent returns 0 with no side effect; if present removes it from both indices
(pruning an emptied bucket) and returns 1.  The C function returns `int32_t`. -/
def ts_remove (s : Store) (id : Int) : Int × Store :=
  match lookupId id s.ident with
  | some ts => (1, ⟨eraseId id s.ident, bucketErase ts id s.tsidx⟩)
  | none => (0, s)

/-- Modelled from the spec: `ts_remove_before_timestamp` removes every entry
whose timestamp is strictly less than the threshold, from both indices, and
returns the removed ids.  It walks the TimestampIndex from its minimum key
while key < threshold, erasing visited buckets, then erases the corresponding
entries from the IdentifierIndex. -/
def ts_remove_before_timestamp (s : Store) (th : Int) : List Int × Store :=
  let r := collectBefore th s.tsidx
  (r.1, ⟨s.ident.filter (fun p => decide (p.1 ∉ r.1)), r.2⟩)

/-- Modelled from the spec: `ts_size` returns the current live-entry count
(one IdentifierIndex entry per live id). -/
def ts_size (s : Store) : Int := s.ident.length

/-- Modelled from the spec: `ts_empty` returns whether size() == 0, as an
`int32_t` flag. -/
def ts_empty (s : Store) : Int := if s.ident.length = 0 then 1 else 0

/-- Modelled from the spec: `ts_contains` returns whether id is currently
present, as an `int32_t` flag. -/
def ts_contains (s : Store) (id : Int) : Int :=
  match lookupId id s.ident with
  | some _ => 1
  | none => 0

/-- Modelled from the spec: `ts_get_timestamp` returns the timestamp associated
with id, or the NOT_FOUND sentinel (an `int64_t` return; the wrapper decodes
negative values as the sentinel, so it is modelled as -1) if absent. -/
def ts_get_timestamp (s : Store) (id : Int) : Int :=
  match lookupId id s.ident with
  | some ts => ts
  | none => -1

/-- Modelled from the spec: `ts_get_min_timestamp` returns the TimestampIndex's
minimum key — the head key of the ascending index — or the NOT_FOUND sentinel
(modelled as -1, see `ts_get_timestamp`) on an empty store. -/
def ts_get_min_timestamp (s : Store) : Int :=
  match s.tsidx with
  | [] => -1
  | p :: _ => p.1

namespace TimestampStore

/-- `__len__`: `return self._lib.ts_size(self._store)`. -/
def len (s : Store) : Int := ts_size s

/-- `__bool__`: `return not self._lib.ts_empty(self._store)` — Python `not`
on an int is true exactly on zero. -/
def toBool (s : Store) : Bool := ts_empty s = 0

/-- `is_empty`, exposed by the wrapper as the negation of the store's
truthiness (`not bool(store)`). -/
def is_empty (s : Store) : Bool := !toBool s

/-- `__contains__`: `return bool(self._lib.ts_contains(self._store, id))` —
Python `bool` on an int is true exactly on nonzero. -/
def mem (s : Store) (id : Int) : Bool := ts_contains s id ≠ 0

/-- `add`: `self._lib.ts_add(self._store, id, timestamp)`. -/
def add (s : Store) (id timestamp : Int) : Store := ts_add s id timestamp

/-- `remove`: `return bool(self._lib.ts_remove(self._store, id))`, paired with
the mutated store. -/
def remove (s : Store) (id : Int) : Bool × Store :=
  let r := ts_remove s id
  (r.1 ≠ 0, r.2)

/-- `remove_timestamp`: calls `ts_remove_before_timestamp` and converts the
returned buffer to a list (the buffer-release bookkeeping is modelled
separately by `removeTimestampTrace`). -/
def remove_timestamp (s : Store) (timestamp : Int) : List Int × Store :=
  ts_remove_before_timestamp s timestamp

/-- `get_timestamp`: `ts = self._lib.ts_get_timestamp(self._store, id);
return ts if ts >= 0 else None`. -/
def get_timestamp (s : Store) (id : Int) : Option Int :=
  let ts := ts_get_timestamp s id
  if 0 ≤ ts then some ts else none

/-- `get_min_timestamp`: `ts = self._lib.ts_get_min_timestamp(self._store);
return ts if ts >= 0 else None`. -/
def get_min_timestamp (s : Store) : Option Int :=
  let ts := ts_get_min_timestamp s
  if 0 ≤ ts then some ts else none

/-- `from_list`: bulk construction from (id, timestamp) pairs.  Modelled from
the spec: `ts_create_from_arrays` pre-populates a store with last-write-wins
semantics "matching `add` semantics"; embedded as sequential `ts_add` on an
empty store (empty input returns a fresh empty store). -/
def from_list (pairs : List (Int × Int)) : Store :=
  pairs.foldl (fun s p => ts_add s p.1 p.2) ts_create

end TimestampStore

/-- One wrapper-level mutating call. -/
inductive Op where
  | add (id ts : Int)
  | remove (id : Int)
  | removeBeforeCall (th : Int)
deriving Repr, DecidableEq

/-- Apply one mutating call to a store. -/
def applyOp (s : Store) : Op → Store
  | Op.add id ts => TimestampStore.add s id ts
  | Op.remove id => (TimestampStore.remove s id).2
  | Op.removeBeforeCall th => (TimestampStore.remove_timestamp s th).2

/-- The store reached from the empty store by a sequence of mutating calls. -/
def runOps (ops : List Op) : Store := ops.foldl applyOp ts_create

/-! ### Binding-layer resource models

These model the ctypes resource management of `wrapper.py` itself (which is in
the sources): the buffer returned by `ts_remove_before_timestamp` and the store
handle destroyed by `__del__`. -/

/-- What the core returns from `ts_remove_before_timestamp` across the foreign
call: the out-parameter `size`, whether the returned pointer is null, and the
buffer contents. -/
structure CoreReply where
  size : Int
  isNull : Bool
  vals : List Int
deriving Repr, DecidableEq

/-- Whether converting the buffer to a Python list (`[arr_ptr[i] for i in
range(size.value)]`) completes or raises. -/
inductive ConvOutcome where
  | ok
  | raised
deriving Repr, DecidableEq

/-- Foreign calls the binding makes while running `remove_timestamp`. -/
inductive BindCall where
  | removeBeforeCall
  | freeArrayCall
deriving Repr, DecidableEq, BEq

/-- The control flow of `TimestampStore.remove_timestamp` in `wrapper.py`,
as a trace of foreign calls: call `ts_remove_before_timestamp`; if
`size.value == 0 or not arr_ptr` return `[]`; otherwise build the list inside
`try:` and call `ts_free_array(arr_ptr)` in the `finally:` block, which runs
both when the conversion completes and when it raises (the exception then
propagates, modelled as `Except.error`). -/
def removeTimestampTrace (r : CoreReply) (conv : ConvOutcome) :
    Except Unit (List Int) × List BindCall :=
  if r.size = 0 ∨ r.isNull then
    (Except.ok [], [BindCall.removeBeforeCall])
  else
    match conv with
    | ConvOutcome.ok => (Except.ok r.vals, [BindCall.removeBeforeCall, BindCall.freeArrayCall])
    | ConvOutcome.raised => (Except.error (), [BindCall.removeBeforeCall, BindCall.freeArrayCall])

/-- The state of `self._store` in a constructed `TimestampStore` instance:
`__init__` sets it to the (nonzero — `if not self._store: raise MemoryError`)
handle returned by `ts_create`; `__del__` sets it to `None`. -/
def tsDel (st : Option Int) : Option Int × Nat :=
  match st with
  | some p => if p ≠ 0 then (none, 1) else (some p, 0)
  | none => (none, 0)

/-- Run `__del__` `n` times, counting the total number of `ts_destroy` calls. -/
def tsDelIter : Nat → Option Int → Option Int × Nat
  | 0, st => (st, 0)
  | n + 1, st =>
    let r := tsDel st
    let r2 := tsDelIter n r.1
    (r2.1, r.2 + r2.2)

/-! ### Unfolding lemmas for the recursive index primitives -/

theorem lookupId_nil (id : Int) : lookupId id [] = none := rfl

theorem lookupId_cons (id : Int) (p : Int × Int) (l : List (Int × Int)) :
    lookupId id (p :: l) = if p.1 = id then some p.2 else lookupId id l := rfl

theorem eraseId_cons (id : Int) (p : Int × Int) (l : List (Int × Int)) :
    eraseId id (p :: l) = if p.1 = id then l else p :: eraseId id l := rfl

theorem eraseElem_cons (id x : Int) (l : List Int) :
    eraseElem id (x :: l) = if x = id then l else x :: eraseElem id l := rfl

theorem allIds_cons (p : Int × List Int) (l : List (Int × List Int)) :
    allIds (p :: l) = p.2 ++ allIds l := rfl

theorem tsFind_cons (id : Int) (p : Int × List Int) (l : List (Int × List Int)) :
    tsFind id (p :: l) = if id ∈ p.2 then some p.1 else tsFind id l := rfl

theorem bucketInsert_cons (ts id : Int) (p : Int × List Int) (l : List (Int × List Int)) :
    bucketInsert ts id (p :: l) =
      if ts < p.1 then (ts, [id]) :: p :: l
      else if ts = p.1 then (p.1, id :: p.2) :: l
      else p :: bucketInsert ts id l := rfl

theorem bucketErase_cons (ts id : Int) (p : Int × List Int) (l : List (Int × List Int)) :
    bucketErase ts id (p :: l) =
      if p.1 = ts then
        (if (eraseElem id p.2).isEmpty then l else (p.1, eraseElem id p.2) :: l)
      else p :: bucketErase ts id l := rfl

theorem collectBefore_cons (th : Int) (p : Int × List Int) (l : List (Int × List Int)) :
    collectBefore th (p :: l) =
      if p.1 < th then (p.2 ++ (collectBefore th l).1, (collectBefore th l).2)
      else ([], p :: l) := rfl

/-! ### Lemmas about `lookupId` and `eraseId` -/

theorem lookupId_eq_none (id : Int) (l : List (Int × Int)) :
    lookupId id l = none ↔ id ∉ l.map Prod.fst := by
  induction l with
  | nil => simp [lookupId_nil]
  | cons p rest ih =>
    rw [lookupId_cons, List.map_cons, List.mem_cons]
    by_cases h : p.1 = id
    · simp [h]
    · rw [if_neg h, ih]
      constructor
      · intro hn hor
        rcases hor with hor | hor
        · exact h hor.symm
        · exact hn hor
      · intro hn hm
        exact hn (Or.inr hm)

theorem lookupId_isSome (id : Int) (l : List (Int × Int)) :
    (lookupId id l).isSome = true ↔ id ∈ l.map Prod.fst := by
  constructor
  · intro h
    by_contra hmem
    rw [(lookupId_eq_none id l).mpr hmem] at h
    exact Bool.noConfusion h
  · intro hmem
    rcases hop : lookupId id l with _ | t
    · exact absurd hmem ((lookupId_eq_none id l).mp hop)
    · rfl

theorem lookupId_mem (id t : Int) (l : List (Int × Int)) (h : lookupId id l = some t) :
    (id, t) ∈ l := by
  induction l with
  | nil => exact Option.noConfusion h
  | cons p rest ih =>
    rw [lookupId_cons] at h
    by_cases hp : p.1 = id
    · rw [if_pos hp] at h
      have hpt : p = (id, t) := by
        obtain ⟨a, b⟩ := p
        obtain rfl := Option.some.inj h
        obtain rfl : a = id := hp
        rfl
      rw [← hpt]
      exact List.mem_cons_self p rest
    · rw [if_neg hp] at h
      exact List.mem_cons_of_mem _ (ih h)

theorem eraseId_map_fst_sublist (id : Int) (l : List (Int × Int)) :
    ((eraseId id l).map Prod.fst).Sublist (l.map Prod.fst) := by
  induction l with
  | nil => exact List.Sublist.refl _
  | cons p rest ih =>
    rw [eraseId_cons]
    by_cases h : p.1 = id
    · rw [if_pos h, List.map_cons]
      exact List.sublist_cons_of_sublist p.1 (List.Sublist.refl _)
    · rw [if_neg h, List.map_cons, List.map_cons]
      exact List.Sublist.cons₂ p.1 ih

theorem lookupId_eraseId_self (id : Int) (l : List (Int × Int))
    (h : (l.map Prod.fst).Nodup) : lookupId id (eraseId id l) = none := by
  induction l with
  | nil => rfl
  | cons p rest ih =>
    rw [List.map_cons, List.nodup_cons] at h
    rw [eraseId_cons]
    by_cases hp : p.1 = id
    · rw [if_pos hp, lookupId_eq_none]
      exact hp ▸ h.1
    · rw [if_neg hp, lookupId_cons, if_neg hp]
      exact ih h.2

theorem lookupId_eraseId_ne (id id2 : Int) (l : List (Int × Int)) (h : id2 ≠ id) :
    lookupId id2 (eraseId id l) = lookupId id2 l := by
  induction l with
  | nil => rfl
  | cons p rest ih =>
    rw [eraseId_cons]
    by_cases hp : p.1 = id
    · rw [if_pos hp, lookupId_cons, if_neg (by rw [hp]; exact fun he => h he.symm)]
    · rw [if_neg hp, lookupId_cons, lookupId_cons, ih]

theorem eraseId_length (id : Int) (l : List (Int × Int)) (h : id ∈ l.map Prod.fst) :
    (eraseId id l).length + 1 = l.length := by
  induction l with
  | nil => simp at h
  | cons p rest ih =>
    rw [eraseId_cons]
    by_cases hp : p.1 = id
    · rw [if_pos hp, List.length_cons]
    · rw [List.map_cons, List.mem_cons] at h
      rcases h with h | h
      · exact absurd h.symm hp
      · rw [if_neg hp, List.length_cons, List.length_cons, ih h]

theorem lookupId_filter_notin (id : Int) (ids : List Int) (l : List (Int × Int)) :
    lookupId id (l.filter (fun p => decide (p.1 ∉ ids))) =
      if id ∈ ids then none else lookupId id l := by
  induction l with
  | nil => simp [lookupId_nil]
  | cons p rest ih =>
    by_cases hmem : p.1 ∈ ids
    · rw [List.filter_cons_of_neg (by simpa using hmem), ih]
      by_cases hid : id ∈ ids
      · rw [if_pos hid, if_pos hid]
      · have hne : p.1 ≠ id := fun he => hid (he ▸ hmem)
        rw [if_neg hid, if_neg hid, lookupId_cons, if_neg hne]
    · rw [List.filter_cons_of_pos (by simpa using hmem)]
      by_cases hp : p.1 = id
      · have hid : id ∉ ids := hp ▸ hmem
        rw [if_neg hid, lookupId_cons, lookupId_cons, if_pos hp, if_pos hp]
      · rw [lookupId_cons, if_neg hp, ih, lookupId_cons, if_neg hp]

/-! ### Lemmas about buckets and `tsFind` -/

theorem eraseElem_sublist (id : Int) (b : List Int) : (eraseElem id b).Sublist b := by
  induction b with
  | nil => exact List.Sublist.refl _
  | cons x rest ih =>
    rw [eraseElem_cons]
    by_cases h : x = id
    · rw [if_pos h]
      exact List.sublist_cons_of_sublist x (List.Sublist.refl _)
    · rw [if_neg h]
      exact List.Sublist.cons₂ x ih

theorem mem_eraseElem_of_ne (id id2 : Int) (b : List Int) (h : id2 ≠ id) :
    id2 ∈ eraseElem id b ↔ id2 ∈ b := by
  induction b with
  | nil => simp [eraseElem]
  | cons x rest ih =>
    rw [eraseElem_cons]
    by_cases hx : x = id
    · rw [if_pos hx, List.mem_cons]
      constructor
      · exact Or.inr
      · intro hor
        rcases hor with hor | hor
        · exact absurd (hor.trans hx) h
        · exact hor
    · rw [if_neg hx, List.mem_cons, List.mem_cons, ih]

theorem perm_cons_eraseElem (id : Int) (b : List Int) (h : id ∈ b) :
    b.Perm (id :: eraseElem id b) := by
  induction b with
  | nil => simp at h
  | cons x rest ih =>
    rw [eraseElem_cons]
    by_cases hx : x = id
    · rw [if_pos hx, hx]
    · rw [if_neg hx]
      rw [List.mem_cons] at h
      rcases h with h | h
      · exact absurd h.symm hx
      · exact (List.Perm.cons x (ih h)).trans (List.Perm.swap id x _)

theorem mem_allIds (id : Int) (t : List (Int × List Int)) :
    id ∈ allIds t ↔ ∃ p ∈ t, id ∈ p.2 := by
  induction t with
  | nil => simp [allIds]
  | cons p rest ih =>
    rw [allIds_cons, List.mem_append, ih]
    constructor
    · intro hor
      rcases hor with hor | ⟨q, hq, hidq⟩
      · exact ⟨p, List.mem_cons_self p rest, hor⟩
      · exact ⟨q, List.mem_cons_of_mem p hq, hidq⟩
    · rintro ⟨q, hq, hidq⟩
      rw [List.mem_cons] at hq
      rcases hq with rfl | hq
      · exact Or.inl hidq
      · exact Or.inr ⟨q, hq, hidq⟩

theorem tsFind_eq_none (id : Int) (t : List (Int × List Int)) :
    tsFind id t = none ↔ id ∉ allIds t := by
  induction t with
  | nil => simp [tsFind, allIds]
  | cons p rest ih =>
    rw [tsFind_cons, allIds_cons, List.mem_append]
    by_cases h : id ∈ p.2
    · simp [h]
    · rw [if_neg h, ih]
      constructor
      · intro hn hor
        rcases hor with hor | hor
        · exact h hor
        · exact hn hor
      · intro hn hm
        exact hn (Or.inr hm)

theorem tsFind_mem (id k : Int) (t : List (Int × List Int)) (h : tsFind id t = some k) :
    ∃ b, (k, b) ∈ t ∧ id ∈ b := by
  induction t with
  | nil => exact Option.noConfusion h
  | cons p rest ih =>
    rw [tsFind_cons] at h
    by_cases hp : id ∈ p.2
    · rw [if_pos hp] at h
      obtain rfl := Option.some.inj h
      refine ⟨p.2, ?_, hp⟩
      exact List.mem_cons_self p rest
    · rw [if_neg hp] at h
      obtain ⟨b, hb, hidb⟩ := ih h
      exact ⟨b, List.mem_cons_of_mem p hb, hidb⟩

theorem tsFind_append_of_notin (id : Int) (t1 t2 : List (Int × List Int))
    (h : id ∉ allIds t1) : tsFind id (t1 ++ t2) = tsFind id t2 := by
  induction t1 with
  | nil => rfl
  | cons p rest ih =>
    rw [allIds_cons, List.mem_append] at h
    rw [List.cons_append, tsFind_cons, if_neg (fun hm => h (Or.inl hm))]
    exact ih fun hm => h (Or.inr hm)

theorem tsFind_unique (id k : Int) (b : List Int) (t : List (Int × List Int))
    (hnd : (allIds t).Nodup) (hmem : (k, b) ∈ t) (hid : id ∈ b) :
    tsFind id t = some k := by
  induction t with
  | nil => simp at hmem
  | cons p rest ih =>
    rw [allIds_cons] at hnd
    rw [tsFind_cons]
    rw [List.mem_cons] at hmem
    have hdisj := List.disjoint_of_nodup_append hnd
    rcases hmem with rfl | hmem
    · rw [if_pos hid]
    · have hin : id ∈ allIds rest := (mem_allIds id rest).mpr ⟨(k, b), hmem, hid⟩
      rw [if_neg (fun hm => hdisj hm hin)]
      exact ih ((List.nodup_append.mp hnd).2.1 : (allIds rest).Nodup) hmem

theorem buckets_disjoint (id : Int) (p q : Int × List Int) (t : List (Int × List Int))
    (hnd : (allIds t).Nodup) (hp : p ∈ t) (hq : q ∈ t) (hidp : id ∈ p.2) (hidq : id ∈ q.2) :
    p = q := by
  induction t with
  | nil => simp at hp
  | cons r rest ih =>
    rw [allIds_cons] at hnd
    have hdisj := List.disjoint_of_nodup_append hnd
    rw [List.mem_cons] at hp hq
    rcases hp with rfl | hp
    · rcases hq with rfl | hq
      · rfl
      · exact absurd ((mem_allIds id rest).mpr ⟨q, hq, hidq⟩) (fun hm => hdisj hidp hm)
    · rcases hq with rfl | hq
      · exact absurd ((mem_allIds id rest).mpr ⟨p, hp, hidp⟩) (fun hm => hdisj hidq hm)
      · exact ih (List.nodup_append.mp hnd).2.1 hp hq

/-! ### Lemmas about `bucketInsert` -/

theorem allIds_bucketInsert_perm (ts id : Int) (t : List (Int × List Int)) :
    (allIds (bucketInsert ts id t)).Perm (id :: allIds t) := by
  induction t with
  | nil => exact List.Perm.refl _
  | cons p rest ih =>
    rw [bucketInsert_cons]
    by_cases h1 : ts < p.1
    · rw [if_pos h1, allIds_cons, allIds_cons]
      exact List.Perm.refl _
    · rw [if_neg h1]
      by_cases h2 : ts = p.1
      · rw [if_pos h2, allIds_cons, allIds_cons]
        exact List.Perm.refl _
      · rw [if_neg h2, allIds_cons, allIds_cons]
        exact (List.Perm.append_left p.2 ih).trans List.perm_middle

theorem mem_bucketInsert (ts id : Int) (q : Int × List Int) (t : List (Int × List Int))
    (h : q ∈ bucketInsert ts id t) : q.1 = ts ∨ q ∈ t := by
  induction t with
  | nil =>
    rcases List.mem_singleton.mp h with rfl
    exact Or.inl rfl
  | cons p rest ih =>
    rw [bucketInsert_cons] at h
    by_cases h1 : ts < p.1
    · rw [if_pos h1, List.mem_cons] at h
      rcases h with rfl | h
      · exact Or.inl rfl
      · exact Or.inr h
    · rw [if_neg h1] at h
      by_cases h2 : ts = p.1
      · rw [if_pos h2, List.mem_cons] at h
        rcases h with rfl | h
        · exact Or.inl h2.symm
        · exact Or.inr (List.mem_cons_of_mem p h)
      · rw [if_neg h2, List.mem_cons] at h
        rcases h with rfl | h
        · exact Or.inr (List.mem_cons_self q rest)
        · rcases ih h with hk | hm
          · exact Or.inl hk
          · exact Or.inr (List.mem_cons_of_mem p hm)

theorem bucketInsert_pairwise (ts id : Int) (t : List (Int × List Int))
    (h : t.Pairwise (fun a b => a.1 < b.1)) :
    (bucketInsert ts id t).Pairwise (fun a b => a.1 < b.1) := by
  induction t with
  | nil => simp [bucketInsert]
  | cons p rest ih =>
    rw [List.pairwise_cons] at h
    rw [bucketInsert_cons]
    by_cases h1 : ts < p.1
    · rw [if_pos h1, List.pairwise_cons]
      refine ⟨?_, List.pairwise_cons.mpr h⟩
      intro q hq
      rw [List.mem_cons] at hq
      rcases hq with rfl | hq
      · exact h1
      · exact h1.trans (h.1 q hq)
    · rw [if_neg h1]
      by_cases h2 : ts = p.1
      · rw [if_pos h2, List.pairwise_cons]
        exact ⟨h.1, h.2⟩
      · rw [if_neg h2, List.pairwise_cons]
        refine ⟨?_, ih h.2⟩
        intro q hq
        rcases mem_bucketInsert ts id q rest hq with hk | hm
        · rw [hk]
          rcases lt_trichotomy ts p.1 with hlt | heq | hgt
          · exact absurd hlt h1
          · exact absurd heq h2
          · exact hgt
        · exact h.1 q hm

theorem bucketInsert_ne_nil (ts id : Int) (t : List (Int × List Int))
    (h : ∀ p ∈ t, p.2 ≠ []) : ∀ p ∈ bucketInsert ts id t, p.2 ≠ [] := by
  induction t with
  | nil =>
    intro p hp
    rcases List.mem_singleton.mp hp with rfl
    exact List.cons_ne_nil id []
  | cons q rest ih =>
    intro p hp
    rw [bucketInsert_cons] at hp
    by_cases h1 : ts < q.1
    · rw [if_pos h1, List.mem_cons] at hp
      rcases hp with rfl | hp
      · exact List.cons_ne_nil id []
      · exact h p hp
    · rw [if_neg h1] at hp
      by_cases h2 : ts = q.1
      · rw [if_pos h2, List.mem_cons] at hp
        rcases hp with rfl | hp
        · exact List.cons_ne_nil id q.2
        · exact h p (List.mem_cons_of_mem q hp)
      · rw [if_neg h2, List.mem_cons] at hp
        rcases hp with rfl | hp
        · exact h p (List.mem_cons_self p rest)
        · exact ih (fun r hr => h r (List.mem_cons_of_mem q hr)) p hp

theorem tsFind_bucketInsert_self (ts id : Int) (t : List (Int × List Int))
    (h : id ∉ allIds t) : tsFind id (bucketInsert ts id t) = some ts := by
  induction t with
  | nil => simp [bucketInsert, tsFind]
  | cons p rest ih =>
    rw [allIds_cons, List.mem_append] at h
    rw [bucketInsert_cons]
    by_cases h1 : ts < p.1
    · rw [if_pos h1, tsFind_cons, if_pos (List.mem_cons_self id [])]
    · rw [if_neg h1]
      by_cases h2 : ts = p.1
      · rw [if_pos h2, tsFind_cons, if_pos (List.mem_cons_self id p.2), h2]
      · rw [if_neg h2, tsFind_cons, if_neg (fun hm => h (Or.inl hm))]
        exact ih fun hm => h (Or.inr hm)

theorem tsFind_bucketInsert_ne (ts id id2 : Int) (t : List (Int × List Int))
    (h : id2 ≠ id) : tsFind id2 (bucketInsert ts id t) = tsFind id2 t := by
  induction t with
  | nil => simp [bucketInsert, tsFind, h]
  | cons p rest ih =>
    rw [bucketInsert_cons]
    by_cases h1 : ts < p.1
    · rw [if_pos h1, tsFind_cons, if_neg (by
        intro hm
        rcases List.mem_singleton.mp hm with rfl
        exact h rfl)]
    · rw [if_neg h1]
      by_cases h2 : ts = p.1
      · rw [if_pos h2, tsFind_cons, tsFind_cons]
        have hmem : id2 ∈ id :: p.2 ↔ id2 ∈ p.2 := by
          rw [List.mem_cons]
          exact ⟨fun hor => hor.resolve_left h, Or.inr⟩
        by_cases hp : id2 ∈ p.2
        · rw [if_pos (hmem.mpr hp), if_pos hp]
        · rw [if_neg (fun hm => hp (hmem.mp hm)), if_neg hp]
      · rw [if_neg h2, tsFind_cons, tsFind_cons, ih]

/-! ### Lemmas about `bucketErase` -/

theorem bucketErase_keys_sublist (ts id : Int) (t : List (Int × List Int)) :
    ((bucketErase ts id t).map Prod.fst).Sublist (t.map Prod.fst) := by
  induction t with
  | nil => exact List.Sublist.refl _
  | cons p rest ih =>
    rw [bucketErase_cons]
    by_cases h : p.1 = ts
    · rw [if_pos h]
      by_cases he : (eraseElem id p.2).isEmpty
      · rw [if_pos he, List.map_cons]
        exact List.sublist_cons_of_sublist p.1 (List.Sublist.refl _)
      · rw [if_neg he, List.map_cons, List.map_cons]
    · rw [if_neg h, List.map_cons, List.map_cons]
      exact List.Sublist.cons₂ p.1 ih

theorem bucketErase_ne_nil (ts id : Int) (t : List (Int × List Int))
    (h : ∀ p ∈ t, p.2 ≠ []) : ∀ p ∈ bucketErase ts id t, p.2 ≠ [] := by
  induction t with
  | nil => intro p hp; simp [bucketErase] at hp
  | cons q rest ih =>
    intro p hp
    rw [bucketErase_cons] at hp
    by_cases hq : q.1 = ts
    · rw [if_pos hq] at hp
      by_cases he : (eraseElem id q.2).isEmpty
      · rw [if_pos he] at hp
        exact h p (List.mem_cons_of_mem q hp)
      · rw [if_neg he, List.mem_cons] at hp
        rcases hp with rfl | hp
        · intro hnil
          exact he (List.isEmpty_iff.mpr hnil)
        · exact h p (List.mem_cons_of_mem q hp)
    · rw [if_neg hq, List.mem_cons] at hp
      rcases hp with rfl | hp
      · exact h p (List.mem_cons_self p rest)
      · exact ih (fun r hr => h r (List.mem_cons_of_mem q hr)) p hp

theorem allIds_bucketErase_sublist (ts id : Int) (t : List (Int × List Int)) :
    (allIds (bucketErase ts id t)).Sublist (allIds t) := by
  induction t with
  | nil => exact List.Sublist.refl _
  | cons p rest ih =>
    rw [bucketErase_cons]
    by_cases h : p.1 = ts
    · rw [if_pos h]
      by_cases he : (eraseElem id p.2).isEmpty
      · rw [if_pos he, allIds_cons]
        exact (List.sublist_append_right p.2 (allIds rest)).trans (List.Sublist.refl _)
      · rw [if_neg he, allIds_cons, allIds_cons]
        exact List.Sublist.append (eraseElem_sublist id p.2) (List.Sublist.refl _)
    · rw [if_neg h, allIds_cons, allIds_cons]
      exact List.Sublist.append (List.Sublist.refl p.2) ih

theorem tsFind_bucketErase_ne (ts id id2 : Int) (t : List (Int × List Int))
    (h : id2 ≠ id) : tsFind id2 (bucketErase ts id t) = tsFind id2 t := by
  induction t with
  | nil => rfl
  | cons p rest ih =>
    rw [bucketErase_cons, tsFind_cons]
    by_cases hp : p.1 = ts
    · rw [if_pos hp]
      by_cases he : (eraseElem id p.2).isEmpty
      · rw [if_pos he]
        have hnotin : id2 ∉ p.2 := by
          intro hin
          have : id2 ∈ eraseElem id p.2 := (mem_eraseElem_of_ne id id2 p.2 h).mpr hin
          rw [List.isEmpty_iff.mp he] at this
          simp at this
        rw [if_neg hnotin]
      · rw [if_neg he, tsFind_cons]
        by_cases hin : id2 ∈ p.2
        · rw [if_pos ((mem_eraseElem_of_ne id id2 p.2 h).mpr hin), if_pos hin]
        · rw [if_neg (fun hm => hin ((mem_eraseElem_of_ne id id2 p.2 h).mp hm)), if_neg hin]
    · rw [if_neg hp, tsFind_cons, ih]

theorem perm_bucketErase (ts id : Int) (t : List (Int × List Int))
    (hk : (t.map Prod.fst).Nodup) (hfind : tsFind id t = some ts) :
    (allIds t).Perm (id :: allIds (bucketErase ts id t)) := by
  induction t with
  | nil => exact Option.noConfusion hfind
  | cons p rest ih =>
    rw [List.map_cons, List.nodup_cons] at hk
    rw [tsFind_cons] at hfind
    rw [bucketErase_cons, allIds_cons]
    by_cases hin : id ∈ p.2
    · rw [if_pos hin] at hfind
      obtain rfl := Option.some.inj hfind
      rw [if_pos rfl]
      have hperm : p.2.Perm (id :: eraseElem id p.2) := perm_cons_eraseElem id p.2 hin
      by_cases he : (eraseElem id p.2).isEmpty
      · rw [if_pos he]
        rw [List.isEmpty_iff.mp he] at hperm
        exact List.Perm.append_right (allIds rest) hperm
      · rw [if_neg he, allIds_cons]
        exact List.Perm.append_right (allIds rest) hperm
    · rw [if_neg hin] at hfind
      have hpts : p.1 ≠ ts := by
        intro hpeq
        obtain ⟨b, hb, hidb⟩ := tsFind_mem id ts rest hfind
        exact hk.1 (hpeq ▸ List.mem_map_of_mem Prod.fst hb)
      rw [if_neg hpts, allIds_cons]
      exact ((List.Perm.append_left p.2 (ih hk.2 hfind)).trans List.perm_middle)

/-! ### Lemmas about `collectBefore` -/

theorem collectBefore_allIds (th : Int) (t : List (Int × List Int)) :
    allIds t = (collectBefore th t).1 ++ allIds (collectBefore th t).2 := by
  induction t with
  | nil => rfl
  | cons p rest ih =>
    rw [collectBefore_cons]
    by_cases hp : p.1 < th
    · rw [if_pos hp, allIds_cons, ih, List.append_assoc]
    · rw [if_neg hp]
      rfl

theorem collectBefore_snd_sublist (th : Int) (t : List (Int × List Int)) :
    (collectBefore th t).2.Sublist t := by
  induction t with
  | nil => exact List.Sublist.refl _
  | cons p rest ih =>
    rw [collectBefore_cons]
    by_cases hp : p.1 < th
    · rw [if_pos hp]
      exact List.sublist_cons_of_sublist p ih
    · rw [if_neg hp]

theorem collectBefore_snd_keys_ge (th : Int) (t : List (Int × List Int))
    (h : t.Pairwise (fun a b => a.1 < b.1)) :
    ∀ p ∈ (collectBefore th t).2, th ≤ p.1 := by
  induction t with
  | nil => intro p hp; simp [collectBefore] at hp
  | cons q rest ih =>
    rw [List.pairwise_cons] at h
    intro p hp
    rw [collectBefore_cons] at hp
    by_cases hq : q.1 < th
    · rw [if_pos hq] at hp
      exact ih h.2 p hp
    · rw [if_neg hq, List.mem_cons] at hp
      rcases hp with rfl | hp
      · exact not_lt.mp hq
      · exact le_of_lt (lt_of_le_of_lt (not_lt.mp hq) (h.1 p hp))

theorem mem_collectBefore_fst (th id : Int) (t : List (Int × List Int))
    (h : t.Pairwise (fun a b => a.1 < b.1)) :
    id ∈ (collectBefore th t).1 ↔ ∃ k, tsFind id t = some k ∧ k < th := by
  induction t with
  | nil =>
    constructor
    · intro hm; simp [collectBefore] at hm
    · rintro ⟨k, hk, _⟩; exact Option.noConfusion hk
  | cons p rest ih =>
    rw [List.pairwise_cons] at h
    rw [collectBefore_cons]
    by_cases hp : p.1 < th
    · rw [if_pos hp]
      by_cases hin : id ∈ p.2
      · constructor
        · intro _
          exact ⟨p.1, by rw [tsFind_cons, if_pos hin], hp⟩
        · intro _
          exact List.mem_append.mpr (Or.inl hin)
      · constructor
        · intro hm
          rcases List.mem_append.mp hm with hm | hm
          · exact absurd hm hin
          · obtain ⟨k, hk, hkth⟩ := (ih h.2).mp hm
            exact ⟨k, by rw [tsFind_cons, if_neg hin]; exact hk, hkth⟩
        · rintro ⟨k, hk, hkth⟩
          rw [tsFind_cons, if_neg hin] at hk
          exact List.mem_append.mpr (Or.inr ((ih h.2).mpr ⟨k, hk, hkth⟩))
    · rw [if_neg hp]
      constructor
      · intro hm; simp at hm
      · rintro ⟨k, hk, hkth⟩
        exfalso
        obtain ⟨b, hb, hidb⟩ := tsFind_mem id k (p :: rest) hk
        rw [List.mem_cons] at hb
        rcases hb with hb | hb
        · have : p.1 = k := congrArg Prod.fst hb.symm
          exact hp (this ▸ hkth)
        · have hlt : p.1 < k := h.1 (k, b) hb
          exact hp (lt_trans hlt hkth)

theorem tsFind_collectBefore_snd (th id : Int) (t : List (Int × List Int))
    (h : id ∉ (collectBefore th t).1) :
    tsFind id (collectBefore th t).2 = tsFind id t := by
  induction t with
  | nil => rfl
  | cons p rest ih =>
    rw [collectBefore_cons] at h ⊢
    by_cases hp : p.1 < th
    · rw [if_pos hp] at h ⊢
      have hin : id ∉ p.2 := fun hm => h (List.mem_append.mpr (Or.inl hm))
      rw [tsFind_cons, if_neg hin]
      exact ih fun hm => h (List.mem_append.mpr (Or.inr hm))
    · rw [if_neg hp] at h ⊢

/-! ### The dual-index invariant -/

/-- Structural well-formedness of the dual-indexed store: the identifier index
has one entry per id; the timestamp index is sorted by key ascending, has no
empty buckets, holds each id at most once overall; and the two indices agree
(looking up an id gives exactly the key of the bucket holding it). -/
def StoreInv (s : Store) : Prop :=
  (s.ident.map Prod.fst).Nodup ∧
  s.tsidx.Pairwise (fun a b => a.1 < b.1) ∧
  (∀ p ∈ s.tsidx, p.2 ≠ []) ∧
  (allIds s.tsidx).Nodup ∧
  ∀ id, lookupId id s.ident = tsFind id s.tsidx

theorem pairwise_keys_nodup (t : List (Int × List Int))
    (h : t.Pairwise (fun a b => a.1 < b.1)) : (t.map Prod.fst).Nodup := by
  have h2 : (t.map Prod.fst).Pairwise (· < ·) := List.pairwise_map.mpr h
  exact h2.imp ne_of_lt

theorem pairwise_of_keys_sublist (t1 t2 : List (Int × List Int))
    (hsub : (t1.map Prod.fst).Sublist (t2.map Prod.fst))
    (h : t2.Pairwise (fun a b => a.1 < b.1)) : t1.Pairwise (fun a b => a.1 < b.1) := by
  have h2 : (t2.map Prod.fst).Pairwise (· < ·) := List.pairwise_map.mpr h
  exact List.pairwise_map.mp (h2.sublist hsub)

theorem storeInv_create : StoreInv ts_create := by
  refine ⟨List.nodup_nil, List.Pairwise.nil, ?_, List.nodup_nil, fun id => rfl⟩
  intro p hp
  simp [ts_create] at hp

theorem storeInv_add (s : Store) (id ts : Int) (h : StoreInv s) : StoreInv (ts_add s id ts) := by
  obtain ⟨hident, hpair, hne, hnd, hagree⟩ := h
  rcases hl : lookupId id s.ident with _ | oldTs
  · -- genuinely new id
    have hnotin : id ∉ allIds s.tsidx := by
      rw [← tsFind_eq_none, ← hagree]
      exact hl
    have hkeys : id ∉ s.ident.map Prod.fst := (lookupId_eq_none id s.ident).mp hl
    unfold ts_add
    rw [hl]
    refine ⟨?_, ?_, ?_, ?_, ?_⟩
    · rw [List.map_cons, List.nodup_cons]
      exact ⟨hkeys, hident⟩
    · exact bucketInsert_pairwise ts id s.tsidx hpair
    · exact bucketInsert_ne_nil ts id s.tsidx hne
    · refine ((allIds_bucketInsert_perm ts id s.tsidx).nodup_iff).mpr ?_
      rw [List.nodup_cons]
      exact ⟨hnotin, hnd⟩
    · intro id2
      by_cases hid : id2 = id
      · subst hid
        rw [lookupId_cons, if_pos rfl, tsFind_bucketInsert_self ts id2 s.tsidx hnotin]
      · rw [lookupId_cons, if_neg (fun he => hid he.symm),
          tsFind_bucketInsert_ne ts id id2 s.tsidx hid]
        exact hagree id2
  · -- update-in-place: relocate the stale association
    have hfind : tsFind id s.tsidx = some oldTs := by rw [← hagree]; exact hl
    have hperm : (allIds s.tsidx).Perm (id :: allIds (bucketErase oldTs id s.tsidx)) :=
      perm_bucketErase oldTs id s.tsidx (pairwise_keys_nodup s.tsidx hpair) hfind
    have hnd2 : (id :: allIds (bucketErase oldTs id s.tsidx)).Nodup := hperm.nodup_iff.mp hnd
    rw [List.nodup_cons] at hnd2
    have hpair2 : (bucketErase oldTs id s.tsidx).Pairwise (fun a b => a.1 < b.1) :=
      pairwise_of_keys_sublist _ _ (bucketErase_keys_sublist oldTs id s.tsidx) hpair
    unfold ts_add
    rw [hl]
    refine ⟨?_, ?_, ?_, ?_, ?_⟩
    · rw [List.map_cons, List.nodup_cons]
      refine ⟨?_, (eraseId_map_fst_sublist id s.ident).nodup hident⟩
      rw [← lookupId_eq_none]
      exact lookupId_eraseId_self id s.ident hident
    · exact bucketInsert_pairwise ts id _ hpair2
    · exact bucketInsert_ne_nil ts id _ (bucketErase_ne_nil oldTs id s.tsidx hne)
    · refine ((allIds_bucketInsert_perm ts id _).nodup_iff).mpr ?_
      rw [List.nodup_cons]
      exact hnd2
    · intro id2
      by_cases hid : id2 = id
      · subst hid
        rw [lookupId_cons, if_pos rfl, tsFind_bucketInsert_self ts id2 _ hnd2.1]
      · rw [lookupId_cons, if_neg (fun he => hid he.symm), lookupId_eraseId_ne id id2 s.ident hid,
          tsFind_bucketInsert_ne ts id id2 _ hid, tsFind_bucketErase_ne oldTs id id2 s.tsidx hid]
        exact hagree id2

theorem storeInv_remove (s : Store) (id : Int) (h : StoreInv s) : StoreInv (ts_remove s id).2 := by
  obtain ⟨hident, hpair, hne, hnd, hagree⟩ := h
  rcases hl : lookupId id s.ident with _ | ts
  · unfold ts_remove
    rw [hl]
    exact ⟨hident, hpair, hne, hnd, hagree⟩
  · have hfind : tsFind id s.tsidx = some ts := by rw [← hagree]; exact hl
    have hperm : (allIds s.tsidx).Perm (id :: allIds (bucketErase ts id s.tsidx)) :=
      perm_bucketErase ts id s.tsidx (pairwise_keys_nodup s.tsidx hpair) hfind
    have hnd2 : (id :: allIds (bucketErase ts id s.tsidx)).Nodup := hperm.nodup_iff.mp hnd
    rw [List.nodup_cons] at hnd2
    unfold ts_remove
    rw [hl]
    refine ⟨(eraseId_map_fst_sublist id s.ident).nodup hident,
      pairwise_of_keys_sublist _ _ (bucketErase_keys_sublist ts id s.tsidx) hpair,
      bucketErase_ne_nil ts id s.tsidx hne, hnd2.2, ?_⟩
    intro id2
    by_cases hid : id2 = id
    · subst hid
      rw [lookupId_eraseId_self id2 s.ident hident,
        Eq.symm ((tsFind_eq_none id2 _).mpr hnd2.1)]
    · rw [lookupId_eraseId_ne id id2 s.ident hid, tsFind_bucketErase_ne ts id id2 s.tsidx hid]
      exact hagree id2

theorem storeInv_removeBefore (s : Store) (th : Int) (h : StoreInv s) :
    StoreInv (ts_remove_before_timestamp s th).2 := by
  obtain ⟨hident, hpair, hne, hnd, hagree⟩ := h
  have hsplit := collectBefore_allIds th s.tsidx
  have hndapp : ((collectBefore th s.tsidx).1 ++ allIds (collectBefore th s.tsidx).2).Nodup := by
    rw [← hsplit]
    exact hnd
  have hnd2 := List.nodup_append.mp hndapp
  have hsub := collectBefore_snd_sublist th s.tsidx
  refine ⟨?_, hpair.sublist hsub, ?_, hnd2.2.1, ?_⟩
  · exact ((List.filter_sublist s.ident).map Prod.fst).nodup hident
  · intro p hp
    exact hne p (hsub.subset hp)
  · intro id2
    have hfl := lookupId_filter_notin id2 (collectBefore th s.tsidx).1 s.ident
    by_cases hin : id2 ∈ (collectBefore th s.tsidx).1
    · rw [show (ts_remove_before_timestamp s th).2.ident =
          s.ident.filter (fun p => decide (p.1 ∉ (collectBefore th s.tsidx).1)) from rfl,
        hfl, if_pos hin]
      refine Eq.symm ((tsFind_eq_none id2 _).mpr ?_)
      exact fun hm => hnd2.2.2 hin hm
    · rw [show (ts_remove_before_timestamp s th).2.ident =
          s.ident.filter (fun p => decide (p.1 ∉ (collectBefore th s.tsidx).1)) from rfl,
        hfl, if_neg hin,
        show (ts_remove_before_timestamp s th).2.tsidx = (collectBefore th s.tsidx).2 from rfl,
        tsFind_collectBefore_snd th id2 s.tsidx hin]
      exact hagree id2

theorem storeInv_applyOp (s : Store) (op : Op) (h : StoreInv s) : StoreInv (applyOp s op) := by
  cases op with
  | add id ts => exact storeInv_add s id ts h
  | remove id => exact storeInv_remove s id h
  | removeBeforeCall th => exact storeInv_removeBefore s th h

theorem storeInv_foldl (ops : List Op) (s : Store) (h : StoreInv s) : StoreInv (ops.foldl applyOp s) := by
  induction ops generalizing s with
  | nil => exact h
  | cons op rest ih => exact ih (applyOp s op) (storeInv_applyOp s op h)

theorem storeInv_runOps (ops : List Op) : StoreInv (runOps ops) :=
  storeInv_foldl ops ts_create storeInv_create

/-! ### Derived facts used by the claim theorems -/

theorem ts_get_timestamp_of_lookup (s : Store) (id t : Int)
    (h : lookupId id s.ident = some t) : ts_get_timestamp s id = t := by
  unfold ts_get_timestamp
  rw [h]

theorem remove_timestamp_fst (s : Store) (th : Int) :
    (TimestampStore.remove_timestamp s th).1 = (collectBefore th s.tsidx).1 := rfl

theorem remove_timestamp_snd_ident (s : Store) (th : Int) :
    (TimestampStore.remove_timestamp s th).2.ident =
      s.ident.filter (fun p => decide (p.1 ∉ (collectBefore th s.tsidx).1)) := rfl

theorem remove_timestamp_snd_tsidx (s : Store) (th : Int) :
    (TimestampStore.remove_timestamp s th).2.tsidx = (collectBefore th s.tsidx).2 := rfl

theorem lookupId_append (id : Int) (l1 l2 : List (Int × Int)) :
    lookupId id (l1 ++ l2) =
      if id ∈ l1.map Prod.fst then lookupId id l1 else lookupId id l2 := by
  induction l1 with
  | nil => simp [lookupId_nil]
  | cons p rest ih =>
    rw [List.cons_append, lookupId_cons, lookupId_cons, ih]
    by_cases hp : p.1 = id
    · have hmem : id ∈ (p :: rest).map Prod.fst := by
        rw [List.map_cons]
        exact List.mem_cons.mpr (Or.inl hp.symm)
      rw [if_pos hp, if_pos hmem, if_pos hp]
    · rw [if_neg hp]
      by_cases hm : id ∈ rest.map Prod.fst
      · have hmem : id ∈ (p :: rest).map Prod.fst := by
          rw [List.map_cons]
          exact List.mem_cons.mpr (Or.inr hm)
        rw [if_pos hm, if_pos hmem, if_neg hp]
      · have hmem : id ∉ (p :: rest).map Prod.fst := by
          rw [List.map_cons]
          intro hor
          rcases List.mem_cons.mp hor with hor | hor
          · exact hp hor.symm
          · exact hm hor
        rw [if_neg hm, if_neg hmem]

theorem lookupId_ts_add (s : Store) (id ts id2 : Int) :
    lookupId id2 (ts_add s id ts).ident =
      if id = id2 then some ts else lookupId id2 s.ident := by
  unfold ts_add
  rcases hl : lookupId id s.ident with _ | oldTs
  · rw [lookupId_cons]
  · rw [lookupId_cons]
    by_cases hid : id = id2
    · rw [if_pos hid, if_pos hid]
    · rw [if_neg hid, if_neg hid, lookupId_eraseId_ne id id2 s.ident (fun he => hid he.symm)]

theorem foldl_add_lookup (pairs : List (Int × Int)) (s : Store) (id : Int) :
    lookupId id (pairs.foldl (fun acc p => ts_add acc p.1 p.2) s).ident =
      match lookupId id pairs.reverse with
      | some t => some t
      | none => lookupId id s.ident := by
  induction pairs generalizing s with
  | nil => rfl
  | cons p rest ih =>
    rw [List.foldl_cons, ih (ts_add s p.1 p.2), List.reverse_cons,
      lookupId_append id rest.reverse [p]]
    by_cases hm : id ∈ rest.reverse.map Prod.fst
    · rw [if_pos hm]
      rcases hr : lookupId id rest.reverse with _ | t
      · exact absurd ((lookupId_eq_none id rest.reverse).mp hr) (fun hn => hn hm)
      · rfl
    · rw [if_neg hm, (lookupId_eq_none id rest.reverse).mpr hm, lookupId_ts_add,
        lookupId_cons, lookupId_nil]
      by_cases hp : p.1 = id
      · rw [if_pos hp, if_pos hp]
      · rw [if_neg hp, if_neg hp]

theorem from_list_eq_runOps (pairs : List (Int × Int)) :
    TimestampStore.from_list pairs = runOps (pairs.map fun p => Op.add p.1 p.2) := by
  unfold TimestampStore.from_list runOps
  rw [List.foldl_map]
  rfl

theorem tsidx_head_facts (s : Store) (hinv : StoreInv s) (p : Int × List Int)
    (rest : List (Int × List Int)) (hs : s.tsidx = p :: rest) :
    (∃ id, lookupId id s.ident = some p.1) ∧
      ∀ id t, lookupId id s.ident = some t → p.1 ≤ t := by
  obtain ⟨hident, hpair, hne, hnd, hagree⟩ := hinv
  constructor
  · have hpe : p.2 ≠ [] := hne p (hs ▸ List.mem_cons_self p rest)
    obtain ⟨id0, hid0⟩ := List.exists_mem_of_ne_nil p.2 hpe
    refine ⟨id0, ?_⟩
    rw [hagree, hs, tsFind_cons, if_pos hid0]
  · intro id t hl
    have hfind : tsFind id s.tsidx = some t := by rw [← hagree]; exact hl
    obtain ⟨b, hb, hidb⟩ := tsFind_mem id t s.tsidx hfind
    rw [hs, List.mem_cons] at hb
    rw [hs, List.pairwise_cons] at hpair
    rcases hb with hb | hb
    · exact le_of_eq (congrArg Prod.fst hb.symm)
    · exact le_of_lt (hpair.1 (t, b) hb)

theorem ident_nil_iff_tsidx_nil (s : Store) (hinv : StoreInv s) :
    s.ident = [] ↔ s.tsidx = [] := by
  constructor
  · intro hid
    rcases hs : s.tsidx with _ | ⟨p, rest⟩
    · rfl
    · obtain ⟨⟨id0, hid0⟩, _⟩ := tsidx_head_facts s hinv p rest hs
      rw [hid] at hid0
      exact Option.noConfusion hid0
  · intro hts
    rcases hid : s.ident with _ | ⟨p, rest⟩
    · rfl
    · obtain ⟨_, _, _, _, hagree⟩ := hinv
      have := hagree p.1
      rw [hid, lookupId_cons, if_pos rfl, hts] at this
      exact Option.noConfusion this

theorem tsDelIter_none (n : Nat) : tsDelIter n none = (none, 0) := by
  induction n with
  | zero => rfl
  | succ n ih => simp [tsDelIter, tsDel, ih]

theorem tsDelIter_some_zero (n : Nat) : tsDelIter n (some 0) = (some 0, 0) := by
  induction n with
  | zero => rfl
  | succ n ih => simp [tsDelIter, tsDel, ih]

/-! ### Claim theorems -/

/-- The index-agreement property of the spec: the set of ids in the identifier
index equals the union of the id-sets of the timestamp buckets, each id lies in
at most one bucket (and at most once), and the key of the bucket holding an id
equals the timestamp `get_timestamp` reports for it. -/
def IndexAgreement (s : Store) : Prop :=
  ((s.ident.map Prod.fst).toFinset = (allIds s.tsidx).toFinset) ∧
  (allIds s.tsidx).Nodup ∧
  (∀ p q, p ∈ s.tsidx → q ∈ s.tsidx → ∀ id, id ∈ p.2 → id ∈ q.2 → p = q) ∧
  (∀ p ∈ s.tsidx, ∀ id ∈ p.2, ts_get_timestamp s id = p.1)

/-- C1: for every store reachable from an empty store by any sequence of add,
remove, and remove_before calls, the set of ids in the identifier index equals
the union of the id-sets across all timestamp buckets, each id appears in
exactly one bucket, and that bucket's key equals get_timestamp(id). -/
theorem c1_index_agreement (ops : List Op) : IndexAgreement (runOps ops) := by
  obtain ⟨hident, hpair, hne, hnd, hagree⟩ := storeInv_runOps ops
  refine ⟨?_, hnd, ?_, ?_⟩
  · apply Finset.ext
    intro id
    rw [List.mem_toFinset, List.mem_toFinset, ← lookupId_isSome, hagree id]
    rcases hf : tsFind id (runOps ops).tsidx with _ | k
    · simp only [Option.isSome_none, Bool.false_eq_true, false_iff]
      exact (tsFind_eq_none id _).mp hf
    · obtain ⟨b, hb, hidb⟩ := tsFind_mem id k _ hf
      simp only [Option.isSome_some, true_iff]
      exact (mem_allIds id _).mpr ⟨(k, b), hb, hidb⟩
  · intro p q hp hq id hidp hidq
    exact buckets_disjoint id p q (runOps ops).tsidx hnd hp hq hidp hidq
  · intro p hp id hid
    have hfind : tsFind id (runOps ops).tsidx = some p.1 :=
      tsFind_unique id p.1 p.2 (runOps ops).tsidx hnd hp hid
    exact ts_get_timestamp_of_lookup _ id p.1 (by rw [hagree]; exact hfind)

/-- C1 witness: the agreement property at a concrete reachable store. -/
theorem c1_index_agreement_witness :
    IndexAgreement (runOps [Op.add 1 100, Op.add 2 50, Op.add 1 70]) :=
  c1_index_agreement [Op.add 1 100, Op.add 2 50, Op.add 1 70]

/-- C4: for every reachable store, id, and threshold, `remove_before` removes
an entry exactly when its timestamp is strictly less than the threshold; in
particular after add(id, 100), remove_before(100) does not remove id and
remove_before(101) does. -/
theorem c4_remove_before_strict (ops : List Op) (th id t : Int)
    (h : lookupId id (runOps ops).ident = some t) :
    id ∈ (TimestampStore.remove_timestamp (runOps ops) th).1 ↔ t < th := by
  obtain ⟨hident, hpair, hne, hnd, hagree⟩ := storeInv_runOps ops
  have hfind : tsFind id (runOps ops).tsidx = some t := by rw [← hagree]; exact h
  rw [remove_timestamp_fst, mem_collectBefore_fst th id (runOps ops).tsidx hpair]
  constructor
  · rintro ⟨k, hk, hkth⟩
    obtain rfl := Option.some.inj (hfind.symm.trans hk)
    exact hkth
  · intro hlt
    exact ⟨t, hfind, hlt⟩

/-- C4 witness: after add(1, 100), remove_before(101) removes id 1 (and the
strictness equivalence holds there). -/
theorem c4_remove_before_strict_witness :
    lookupId 1 (runOps [Op.add 1 100]).ident = some 100 ∧
      ((1 : Int) ∈ (TimestampStore.remove_timestamp (runOps [Op.add 1 100]) 101).1 ↔
        (100 : Int) < 101) :=
  ⟨by decide, c4_remove_before_strict [Op.add 1 100] 101 1 100 (by decide)⟩

/-- C5: for every reachable store and threshold, after remove_before no
remaining entry has a timestamp below the threshold, and the returned id list
is duplicate-free and consists of exactly the removed ids: those present
before with timestamp below the threshold (hence an empty list when none
qualifies), all of which are absent afterwards. -/
theorem c5_remove_before_complete (ops : List Op) (th : Int) :
    (∀ id t, lookupId id (TimestampStore.remove_timestamp (runOps ops) th).2.ident = some t →
      th ≤ t) ∧
    (TimestampStore.remove_timestamp (runOps ops) th).1.Nodup ∧
    (∀ id, id ∈ (TimestampStore.remove_timestamp (runOps ops) th).1 ↔
      ∃ t, lookupId id (runOps ops).ident = some t ∧ t < th) ∧
    (∀ id, id ∈ (TimestampStore.remove_timestamp (runOps ops) th).1 →
      lookupId id (TimestampStore.remove_timestamp (runOps ops) th).2.ident = none) := by
  obtain ⟨hident, hpair, hne, hnd, hagree⟩ := storeInv_runOps ops
  have hndapp : ((collectBefore th (runOps ops).tsidx).1 ++
      allIds (collectBefore th (runOps ops).tsidx).2).Nodup := by
    rw [← collectBefore_allIds th (runOps ops).tsidx]
    exact hnd
  refine ⟨?_, ?_, ?_, ?_⟩
  · intro id t hl
    rw [remove_timestamp_snd_ident, lookupId_filter_notin] at hl
    by_cases hin : id ∈ (collectBefore th (runOps ops).tsidx).1
    · rw [if_pos hin] at hl
      exact Option.noConfusion hl
    · rw [if_neg hin] at hl
      by_contra hth
      refine hin ((mem_collectBefore_fst th id (runOps ops).tsidx hpair).mpr ?_)
      exact ⟨t, by rw [← hagree]; exact hl, not_le.mp hth⟩
  · rw [remove_timestamp_fst]
    exact (List.nodup_append.mp hndapp).1
  · intro id
    rw [remove_timestamp_fst, mem_collectBefore_fst th id (runOps ops).tsidx hpair]
    constructor
    · rintro ⟨k, hk, hkth⟩
      exact ⟨k, by rw [hagree]; exact hk, hkth⟩
    · rintro ⟨t, hl, hlt⟩
      exact ⟨t, by rw [← hagree]; exact hl, hlt⟩
  · intro id hin
    rw [remove_timestamp_fst] at hin
    rw [remove_timestamp_snd_ident, lookupId_filter_notin, if_pos hin]

/-- C5 witness: the spec scenario — from {(1,100),(2,50)}, remove_before(80)
returns exactly [2], which is then absent, and the remaining entry (1,100) is
at or above the threshold. -/
theorem c5_remove_before_complete_witness :
    ((2 : Int) ∈ (TimestampStore.remove_timestamp (runOps [Op.add 1 100, Op.add 2 50]) 80).1) ∧
      lookupId 2 (TimestampStore.remove_timestamp
        (runOps [Op.add 1 100, Op.add 2 50]) 80).2.ident = none := by
  have h := c5_remove_before_complete [Op.add 1 100, Op.add 2 50] 80
  have hmem : (2 : Int) ∈ (TimestampStore.remove_timestamp
      (runOps [Op.add 1 100, Op.add 2 50]) 80).1 :=
    (h.2.2.1 2).mpr ⟨50, by decide, by decide⟩
  exact ⟨hmem, h.2.2.2 2 hmem⟩

/-- C6: for every reachable store and id, remove(id) returns exactly the
presence flag; when id is absent it returns false with the store unchanged;
when id is present it returns true and removes exactly the entry for id from
both indices (all other ids keep their lookup and bucket, and the size drops
by one). -/
theorem c6_remove_semantics (ops : List Op) (id : Int) :
    ((TimestampStore.remove (runOps ops) id).1 = (lookupId id (runOps ops).ident).isSome) ∧
    (lookupId id (runOps ops).ident = none →
      TimestampStore.remove (runOps ops) id = (false, runOps ops)) ∧
    (∀ t, lookupId id (runOps ops).ident = some t →
      (TimestampStore.remove (runOps ops) id).1 = true ∧
      lookupId id (TimestampStore.remove (runOps ops) id).2.ident = none ∧
      tsFind id (TimestampStore.remove (runOps ops) id).2.tsidx = none ∧
      (∀ id2, id2 ≠ id →
        lookupId id2 (TimestampStore.remove (runOps ops) id).2.ident =
          lookupId id2 (runOps ops).ident ∧
        tsFind id2 (TimestampStore.remove (runOps ops) id).2.tsidx =
          tsFind id2 (runOps ops).tsidx) ∧
      ts_size (TimestampStore.remove (runOps ops) id).2 + 1 = ts_size (runOps ops)) := by
  obtain ⟨hident, hpair, hne, hnd, hagree⟩ := storeInv_runOps ops
  rcases hl : lookupId id (runOps ops).ident with _ | t0
  · refine ⟨?_, ?_, ?_⟩
    · simp [TimestampStore.remove, ts_remove, hl]
    · intro _
      simp [TimestampStore.remove, ts_remove, hl]
    · intro t ht
      exact Option.noConfusion ht
  · have hfind : tsFind id (runOps ops).tsidx = some t0 := by rw [← hagree]; exact hl
    have hperm : (allIds (runOps ops).tsidx).Perm
        (id :: allIds (bucketErase t0 id (runOps ops).tsidx)) :=
      perm_bucketErase t0 id (runOps ops).tsidx (pairwise_keys_nodup _ hpair) hfind
    have hnd2 : (id :: allIds (bucketErase t0 id (runOps ops).tsidx)).Nodup :=
      hperm.nodup_iff.mp hnd
    rw [List.nodup_cons] at hnd2
    refine ⟨?_, ?_, ?_⟩
    · simp [TimestampStore.remove, ts_remove, hl]
    · intro hn
      exact Option.noConfusion hn
    · intro t ht
      obtain rfl : t0 = t := Option.some.inj ht
      refine ⟨by simp [TimestampStore.remove, ts_remove, hl], ?_, ?_, ?_, ?_⟩
      · show lookupId id (ts_remove (runOps ops) id).2.ident = none
        unfold ts_remove
        rw [hl]
        exact lookupId_eraseId_self id (runOps ops).ident hident
      · show tsFind id (ts_remove (runOps ops) id).2.tsidx = none
        unfold ts_remove
        rw [hl]
        exact (tsFind_eq_none id _).mpr hnd2.1
      · intro id2 hid2
        constructor
        · show lookupId id2 (ts_remove (runOps ops) id).2.ident = _
          unfold ts_remove
          rw [hl]
          exact lookupId_eraseId_ne id id2 (runOps ops).ident hid2
        · show tsFind id2 (ts_remove (runOps ops) id).2.tsidx = _
          unfold ts_remove
          rw [hl]
          exact tsFind_bucketErase_ne t0 id id2 (runOps ops).tsidx hid2
      · show ts_size (ts_remove (runOps ops) id).2 + 1 = ts_size (runOps ops)
        have hred : ts_remove (runOps ops) id =
            (1, ⟨eraseId id (runOps ops).ident, bucketErase t0 id (runOps ops).tsidx⟩) := by
          unfold ts_remove
          rw [hl]
        rw [hred]
        have hlen := eraseId_length id (runOps ops).ident
          ((lookupId_isSome id (runOps ops).ident).mp (by rw [hl]; rfl))
        show ((eraseId id (runOps ops).ident).length : Int) + 1 = ((runOps ops).ident.length : Int)
        exact_mod_cast hlen

/-- C6 witness: remove(99) on a store without id 99 returns false and leaves
the store untouched; remove(1) on a store holding id 1 returns true. -/
theorem c6_remove_semantics_witness :
    TimestampStore.remove (runOps [Op.add 1 100]) 99 = (false, runOps [Op.add 1 100]) ∧
      (TimestampStore.remove (runOps [Op.add 1 100]) 1).1 = true :=
  ⟨(c6_remove_semantics [Op.add 1 100] 99).2.1 (by decide),
   ((c6_remove_semantics [Op.add 1 100] 1).2.2 100 (by decide)).1⟩

/-- C7: building a store with from_list gives, for each id, the timestamp of
its last occurrence in the sequence (last-write-wins, by lookup in the
reversed sequence); the size equals the number of distinct ids; the empty
sequence yields the empty store; and from_list [(1,10),(1,20)] has size 1 with
get_timestamp(1) = some 20. -/
theorem c7_from_list_batch :
    (∀ pairs id, lookupId id (TimestampStore.from_list pairs).ident =
      lookupId id pairs.reverse) ∧
    (∀ pairs, ts_size (TimestampStore.from_list pairs) =
      ((pairs.map Prod.fst).toFinset.card : Int)) ∧
    TimestampStore.from_list [] = ts_create ∧
    ts_size (TimestampStore.from_list [(1, 10), (1, 20)]) = 1 ∧
    TimestampStore.get_timestamp (TimestampStore.from_list [(1, 10), (1, 20)]) 1 = some 20 := by
  have hlk : ∀ pairs id, lookupId id (TimestampStore.from_list pairs).ident =
      lookupId id pairs.reverse := by
    intro pairs id
    rw [show TimestampStore.from_list pairs =
        pairs.foldl (fun acc p => ts_add acc p.1 p.2) ts_create from rfl,
      foldl_add_lookup pairs ts_create id]
    rcases hres : lookupId id pairs.reverse with _ | t
    · rfl
    · rfl
  refine ⟨hlk, ?_, rfl, by decide, by decide⟩
  intro pairs
  have hinv : StoreInv (TimestampStore.from_list pairs) := by
    rw [from_list_eq_runOps pairs]
    exact storeInv_runOps _
  obtain ⟨hident, _, _, _, _⟩ := hinv
  have hkeys : ((TimestampStore.from_list pairs).ident.map Prod.fst).toFinset =
      (pairs.map Prod.fst).toFinset := by
    apply Finset.ext
    intro id
    rw [List.mem_toFinset, List.mem_toFinset, ← lookupId_isSome, hlk pairs id,
      lookupId_isSome, List.map_reverse, List.mem_reverse]
  have hcard : (TimestampStore.from_list pairs).ident.length =
      (pairs.map Prod.fst).toFinset.card := by
    rw [← hkeys, List.toFinset_card_of_nodup hident, List.length_map]
  show ((TimestampStore.from_list pairs).ident.length : Int) = _
  exact_mod_cast hcard

/-- C8: for every store, the wrapper's emptiness view agrees with its size
view — the negation of the store's truthiness holds exactly when size() is
zero, and the store is truthy exactly when size() is nonzero. -/
theorem c8_is_empty_iff_size_zero (s : Store) :
    (TimestampStore.is_empty s = true ↔ ts_size s = 0) ∧
    (TimestampStore.toBool s = true ↔ ts_size s ≠ 0) := by
  unfold TimestampStore.is_empty TimestampStore.toBool ts_empty ts_size
  by_cases h : s.ident.length = 0 <;> simp [h, Int.natCast_eq_zero]

/-- C2 counterexample: in the store reached by add(1, -5), id 1 is present
(`1 in store` is true) yet `get_timestamp(1)` returns None — the wrapper maps
every negative core return, including a genuinely stored negative timestamp,
to the "not found" result. -/
theorem c2_get_timestamp_counterexample :
    TimestampStore.mem (runOps [Op.add 1 (-5)]) 1 = true ∧
      TimestampStore.get_timestamp (runOps [Op.add 1 (-5)]) 1 = none := by
  decide

/-- C2 amended: `get_timestamp(id)` returns the stored timestamp exactly when
id is present with a nonnegative timestamp, and returns None exactly when id
is absent or its stored timestamp is negative. -/
theorem c2_get_timestamp_amended (s : Store) (id : Int) :
    (∀ t, TimestampStore.get_timestamp s id = some t ↔
      lookupId id s.ident = some t ∧ 0 ≤ t) ∧
    (TimestampStore.get_timestamp s id = none ↔
      lookupId id s.ident = none ∨ ∃ t, lookupId id s.ident = some t ∧ t < 0) := by
  unfold TimestampStore.get_timestamp ts_get_timestamp
  rcases hl : lookupId id s.ident with _ | v
  · constructor
    · intro t
      constructor
      · intro hsome
        rw [if_neg (by norm_num)] at hsome
        exact Option.noConfusion hsome
      · rintro ⟨hfalse, _⟩
        exact Option.noConfusion hfalse
    · rw [if_neg (by norm_num)]
      exact ⟨fun _ => Or.inl rfl, fun _ => rfl⟩
  · by_cases hv : 0 ≤ v
    · rw [if_pos hv]
      constructor
      · intro t
        constructor
        · intro hsome
          obtain rfl := Option.some.inj hsome
          exact ⟨rfl, hv⟩
        · rintro ⟨hteq, _⟩
          obtain rfl := Option.some.inj hteq
          rfl
      · constructor
        · intro hfalse
          exact Option.noConfusion hfalse
        · rintro (hfalse | ⟨t, hteq, htneg⟩)
          · exact Option.noConfusion hfalse
          · obtain rfl := Option.some.inj hteq
            exact absurd hv (not_le.mpr htneg)
    · rw [if_neg hv]
      constructor
      · intro t
        constructor
        · intro hfalse
          exact Option.noConfusion hfalse
        · rintro ⟨hteq, ht⟩
          obtain rfl := Option.some.inj hteq
          exact absurd ht hv
      · exact ⟨fun _ => Or.inr ⟨v, rfl, not_le.mp hv⟩, fun _ => rfl⟩

/-- C2 amended witness: a present id with nonnegative timestamp is returned. -/
theorem c2_get_timestamp_amended_witness :
    TimestampStore.get_timestamp (runOps [Op.add 1 7]) 1 = some 7 :=
  ((c2_get_timestamp_amended (runOps [Op.add 1 7]) 1).1 7).mpr ⟨by decide, by decide⟩

/-- C3 counterexample: the store reached by add(1, -5) has size 1, yet
`get_min_timestamp()` returns None — the wrapper maps the negative minimum
timestamp to the empty result even though the store is nonempty. -/
theorem c3_get_min_counterexample :
    ts_size (runOps [Op.add 1 (-5)]) ≠ 0 ∧
      TimestampStore.get_min_timestamp (runOps [Op.add 1 (-5)]) = none := by
  decide

/-- C3 amended: on every reachable store, `get_min_timestamp()` returns None
when the store is empty, and returns some m exactly when m is nonnegative and
is the smallest timestamp among present entries; (when the minimum is
negative the wrapper collapses it to None as well). -/
theorem c3_get_min_amended (ops : List Op) :
    (ts_size (runOps ops) = 0 → TimestampStore.get_min_timestamp (runOps ops) = none) ∧
    (∀ m, TimestampStore.get_min_timestamp (runOps ops) = some m ↔
      (0 ≤ m ∧ (∃ id, lookupId id (runOps ops).ident = some m) ∧
        ∀ id t, lookupId id (runOps ops).ident = some t → m ≤ t)) := by
  have hinv := storeInv_runOps ops
  constructor
  · intro hsz
    have hident : (runOps ops).ident = [] := by
      unfold ts_size at hsz
      have : (runOps ops).ident.length = 0 := by exact_mod_cast hsz
      exact List.length_eq_zero.mp this
    have hts : (runOps ops).tsidx = [] := (ident_nil_iff_tsidx_nil _ hinv).mp hident
    unfold TimestampStore.get_min_timestamp ts_get_min_timestamp
    rw [hts]
    norm_num
  · intro m
    rcases hts : (runOps ops).tsidx with _ | ⟨p, rest⟩
    · have hident : (runOps ops).ident = [] := (ident_nil_iff_tsidx_nil _ hinv).mpr hts
      unfold TimestampStore.get_min_timestamp ts_get_min_timestamp
      rw [hts]
      constructor
      · intro hfalse
        rw [if_neg (by norm_num)] at hfalse
        exact Option.noConfusion hfalse
      · rintro ⟨_, ⟨id0, hid0⟩, _⟩
        rw [hident] at hid0
        exact Option.noConfusion hid0
    · obtain ⟨⟨id0, hid0⟩, hmin⟩ := tsidx_head_facts (runOps ops) hinv p rest hts
      unfold TimestampStore.get_min_timestamp ts_get_min_timestamp
      rw [hts]
      by_cases hp : 0 ≤ p.1
      · rw [if_pos hp]
        constructor
        · intro hsome
          obtain rfl := Option.some.inj hsome
          exact ⟨hp, ⟨id0, hid0⟩, hmin⟩
        · rintro ⟨hm, ⟨id1, hid1⟩, hmin2⟩
          have h1 : p.1 ≤ m := hmin id1 m hid1
          have h2 : m ≤ p.1 := hmin2 id0 p.1 hid0
          show some p.1 = some m
          rw [le_antisymm h1 h2]
      · rw [if_neg hp]
        constructor
        · intro hfalse
          exact Option.noConfusion hfalse
        · rintro ⟨hm, ⟨id1, hid1⟩, hmin2⟩
          exact absurd (le_trans hm (hmin2 id0 p.1 hid0)) hp

/-- C3 amended witness: on a nonempty store with nonnegative timestamps the
minimum is returned. -/
theorem c3_get_min_amended_witness :
    TimestampStore.get_min_timestamp (runOps [Op.add 1 100, Op.add 2 50]) = some 50 := by
  refine ((c3_get_min_amended [Op.add 1 100, Op.add 2 50]).2 50).mpr ?_
  refine ⟨by norm_num, ⟨2, by decide⟩, ?_⟩
  intro id t hl
  have h1 : lookupId id (runOps [Op.add 1 100, Op.add 2 50]).ident = some t := hl
  by_cases h : id = 1
  · subst h
    obtain rfl : (100 : Int) = t := by
      have : lookupId 1 (runOps [Op.add 1 100, Op.add 2 50]).ident = some 100 := by decide
      exact Option.some.inj (this.symm.trans h1)
    norm_num
  · by_cases h2 : id = 2
    · subst h2
      obtain rfl : (50 : Int) = t := by
        have : lookupId 2 (runOps [Op.add 1 100, Op.add 2 50]).ident = some 50 := by decide
        exact Option.some.inj (this.symm.trans h1)
      norm_num
    · exfalso
      have hmem := lookupId_mem id t _ h1
      have : (runOps [Op.add 1 100, Op.add 2 50]).ident = [(2, 50), (1, 100)] := by decide
      rw [this] at hmem
      rcases List.mem_cons.mp hmem with he | hmem2
      · exact h2 (congrArg Prod.fst he)
      · rcases List.mem_singleton.mp hmem2 with he2
        exact h (congrArg Prod.fst he2)

/-- C9: on every call of the binding's `remove_timestamp`, the heap buffer
returned by `ts_remove_before_timestamp` is released by `ts_free_array`
exactly once when the core reports a nonzero count and a non-null pointer —
including when converting the buffer to a Python list raises (the `finally:`
block) — and is never released on the zero-count/null-pointer path. -/
theorem c9_buffer_freed_once (r : CoreReply) (conv : ConvOutcome) :
    (removeTimestampTrace r conv).2.count BindCall.freeArrayCall =
      (if r.size = 0 ∨ r.isNull then 0 else 1) ∧
    (removeTimestampTrace r conv).2.count BindCall.removeBeforeCall = 1 := by
  unfold removeTimestampTrace
  by_cases h : r.size = 0 ∨ r.isNull
  · rw [if_pos h, if_pos h]
    exact ⟨by decide, by decide⟩
  · rw [if_neg h, if_neg h]
    cases conv
    · exact ⟨rfl, rfl⟩
    · exact ⟨rfl, rfl⟩

/-- C10: for every instance handle state, iterating `__del__` any number of
times calls `ts_destroy` at most once in total, and — for a live (nonzero)
handle — exactly once as soon as `__del__` has run at least once. -/
theorem c10_destroy_at_most_once (st : Option Int) (n : Nat) :
    (tsDelIter n st).2 ≤ 1 ∧
      (∀ p, st = some p → p ≠ 0 → 1 ≤ n → (tsDelIter n st).2 = 1) := by
  constructor
  · rcases st with _ | p
    · rw [tsDelIter_none]
      exact Nat.zero_le 1
    · cases n with
      | zero => exact Nat.zero_le 1
      | succ n =>
        by_cases hp : p = 0
        · subst hp
          rw [tsDelIter_some_zero]
          exact Nat.zero_le 1
        · show (tsDelIter (n + 1) (some p)).2 ≤ 1
          simp [tsDelIter, tsDel, hp, tsDelIter_none]
  · rintro p rfl hp hn
    cases n with
    | zero => exact absurd hn (by norm_num)
    | succ n =>
      show (tsDelIter (n + 1) (some p)).2 = 1
      simp [tsDelIter, tsDel, hp, tsDelIter_none]

/-- C10 witness: three finalizations of a live handle destroy it exactly
once. -/
theorem c10_destroy_at_most_once_witness :
    (tsDelIter 3 (some 7)).2 = 1 :=
  (c10_destroy_at_most_once (some 7) 3).2 7 rfl (by norm_num) (by norm_num)
